import Mathlib

/-!
Verification of the `akamai etp` command-line client (cli-etp).

The argument/credentials layer is embedded from `bin/config.py`
(`EdgeGridConfig.__init__`): the `event` sub-command's argument
conversions and defaults, and the `.edgerc` credentials-file section
check.  The event fetch engine itself (time-window partitioner, ordered
merge for concurrent window fetches, duplicate filter, tail poll loop)
ships as the `bin/akamai-etp` script, which is not part of this source
tree; those components are modelled from the specification and their
doc comments say so explicitly.
-/

namespace CliEtp

/-- Model of Python `int(s)` on a plain decimal string, as `argparse`
applies it through `type=int` in `bin/config.py`; `none` models the
`ValueError` that makes `argparse` reject the invocation. -/
def digitVal (c : Char) : Option Nat :=
  if '0' ≤ c ∧ c ≤ '9' then some (c.toNat - '0'.toNat) else none

/-- Accumulating decimal parse over the characters of the string. -/
def parseDigits : List Char → Nat → Option Nat
  | [], acc => some acc
  | c :: rest, acc =>
    match digitVal c with
    | some d => parseDigits rest (acc * 10 + d)
    | none => none

/-- `int(s)` for an optionally `-`-signed decimal string. -/
def pyInt (s : String) : Option Int :=
  match s.data with
  | [] => none
  | '-' :: rest =>
    if rest.isEmpty then none
    else (parseDigits rest 0).map (fun n => -(n : Int))
  | cs => parseDigits cs 0

/-- A parsed argument value.  Python is dynamically typed: an argument
can hold the `int` produced by `type=int` conversion, or a raw string
taken verbatim from `os.environ`. -/
inductive PyValue where
  | str (s : String)
  | int (n : Int)
deriving DecidableEq

/-- `os.environ.get('CLIETP_FETCH_CONCURRENT', 1)` (config.py line 64):
the raw environment string when the variable is set, otherwise the
Python `int` `1`. -/
def concurrentDefault (env : Option String) : PyValue :=
  match env with
  | some s => PyValue.str s
  | none => PyValue.int 1

/-- An optional `argparse` argument declared with `type=int` and no
default (`--start` line 52, `--end` line 53): absent yields `None`;
present, the raw string goes through `int()`, and a conversion failure
is an `argparse` rejection of the invocation. -/
def parseIntOpt (name : String) (raw : Option String) : Except String (Option Int) :=
  match raw with
  | none => Except.ok none
  | some s =>
    match pyInt s with
    | some n => Except.ok (some n)
    | none => Except.error ("argument " ++ name ++ ": invalid int value: " ++ s)

/-- `--poll` (config.py line 59): `type=int, default=60`. -/
def parsePoll (raw : Option String) : Except String Int :=
  match raw with
  | none => Except.ok 60
  | some s =>
    match pyInt s with
    | some n => Except.ok n
    | none => Except.error ("argument --poll: invalid int value: " ++ s)

/-- `--limit` (config.py line 61): `type=int, default=3*60`; this is the
safety lag bounding how close to `now` the fetch may reach. -/
def parseLimit (raw : Option String) : Except String Int :=
  match raw with
  | none => Except.ok (3 * 60)
  | some s =>
    match pyInt s with
    | some n => Except.ok n
    | none => Except.error ("argument --limit: invalid int value: " ++ s)

/-- `--concurrent` (config.py lines 64-65): a command-line value goes
through `type=int`; with no command-line value `argparse` takes
`os.environ.get('CLIETP_FETCH_CONCURRENT', 1)` as the default, and —
because `argparse` applies the `type` callable to defaults that are
strings — an environment string is converted through `int()` as well
(failing the parse when it is not a valid integer), while the
non-string default `1` is used as-is. -/
def parseConcurrent (raw : Option String) (env : Option String) : Except String PyValue :=
  match raw with
  | some s =>
    match pyInt s with
    | some n => Except.ok (PyValue.int n)
    | none => Except.error ("argument --concurrent: invalid int value: " ++ s)
  | none =>
    match concurrentDefault env with
    | PyValue.str s =>
      match pyInt s with
      | some n => Except.ok (PyValue.int n)
      | none => Except.error ("argument --concurrent: invalid int value: " ++ s)
    | PyValue.int n => Except.ok (PyValue.int n)

/-- The `choices` list of the positional `event_type` argument
(config.py line 48). -/
def eventTypeChoices : List String := ["threat", "aup", "dns", "proxy", "netcon"]

/-- The positional `event_type` (config.py lines 47-51): `nargs='?'`
with `default="threat"` and the `choices` enumeration; a value outside
the enumeration is an `argparse` rejection. -/
def parseEventType (raw : Option String) : Except String String :=
  match raw with
  | none => Except.ok "threat"
  | some s =>
    if eventTypeChoices.contains s then Except.ok s
    else Except.error ("argument event_type: invalid choice: " ++ s)

/-- The raw command line of an `akamai etp event` invocation: each field
is the string supplied for that option, or `none` when absent;
`--tail` is a `store_true` flag (config.py line 55). -/
structure EventCmdline where
  event_type : Option String
  start : Option String
  «end» : Option String
  output : Option String
  tail : Bool
  poll : Option String
  limit : Option String
  concurrent : Option String
deriving DecidableEq

/-- The parsed arguments of the `event` sub-command, after `argparse`
conversion and defaulting. -/
structure EventArgs where
  event_type : String
  start : Option Int
  «end» : Option Int
  output : Option String
  tail : Bool
  poll : Int
  limit : Int
  concurrent : PyValue
deriving DecidableEq

/-- Parsing of the `event` sub-command exactly as `EdgeGridConfig.__init__`
declares it (config.py lines 45-65): each option converted
independently, the first failing conversion aborting the parse
(`argparse` exits the process).  No relation between `start` and `end`,
and no sign or range condition on `concurrent`, is ever checked. -/
def parseEventArgs (c : EventCmdline) (env : Option String) : Except String EventArgs :=
  match parseEventType c.event_type with
  | Except.error m => Except.error m
  | Except.ok et =>
    match parseIntOpt "--start" c.start with
    | Except.error m => Except.error m
    | Except.ok s =>
      match parseIntOpt "--end" c.«end» with
      | Except.error m => Except.error m
      | Except.ok e =>
        match parsePoll c.poll with
        | Except.error m => Except.error m
        | Except.ok p =>
          match parseLimit c.limit with
          | Except.error m => Except.error m
          | Except.ok l =>
            match parseConcurrent c.concurrent env with
            | Except.error m => Except.error m
            | Except.ok conc =>
              Except.ok { event_type := et, start := s, «end» := e,
                          output := c.output, tail := c.tail,
                          poll := p, limit := l, concurrent := conc }

/-- An INI credentials file as `ConfigParser` exposes it: named
sections, each holding key/value items. -/
structure EdgercFile where
  sections : List (String × List (String × String))
deriving DecidableEq

/-- `ConfigParser.has_section` on the loaded `.edgerc` file. -/
def has_section (f : EdgercFile) (name : String) : Bool :=
  f.sections.any (fun p => p.1 == name)

/-- Outcome of the credentials-loading tail of `EdgeGridConfig.__init__`
(config.py lines 172-188): either the process terminates through
`sys.exit(msg)`, or construction proceeds. -/
inductive ConfigOutcome where
  | exitError (msg : String)
  | proceed
deriving DecidableEq

/-- The error message built at config.py lines 176-179 when the
requested section is missing. -/
def noSectionMsg (configuration file : String) : String :=
  "ERROR: No section named " ++ configuration ++ " was found in your " ++ file ++ " file\n" ++
  "ERROR: Please generate credentials for the script functionality\n" ++
  "ERROR: and run 'python gen_edgerc.py " ++ configuration ++ "' to generate the credential file\n"

/-- The credentials-file check of `EdgeGridConfig.__init__` (config.py
lines 172-188): only when the `.edgerc` file exists is it read, and a
missing section then calls `sys.exit` with the error message; a
non-existent file skips the whole block and construction proceeds. -/
def loadEdgerc (fileExists : Bool) (f : EdgercFile) (configuration file : String) :
    ConfigOutcome :=
  if fileExists then
    if !has_section f configuration then
      ConfigOutcome.exitError (noSectionMsg configuration file)
    else
      ConfigOutcome.proceed
  else
    ConfigOutcome.proceed

/-- Modelled from the spec: helper for `partition`; the Time Window
Partitioner lives in the distributed `bin/akamai-etp` script, which is
not part of this source tree.  The fuel argument bounds the recursion:
when `0 < W` every step advances the window start by at least one
second, so `(e - s).toNat` steps always suffice. -/
def partitionAux : Nat → Int → Int → Int → List (Int × Int)
  | 0, _, _, _ => []
  | fuel + 1, s, e, W =>
    if s < e then (s, min (s + W) e) :: partitionAux fuel (min (s + W) e) e W
    else []

/-- Modelled from the spec: the Time Window Partitioner (spec §4.1) of
the fetch engine in `bin/akamai-etp`, absent from this source tree.
Splits `[s, e)` into consecutive half-open windows of length at most
`W`, the last possibly shorter; `e ≤ s` yields the empty sequence. -/
def partition (s e W : Int) : List (Int × Int) :=
  if 0 < W then partitionAux (e - s).toNat s e W else []

/-- `windowChain l s e`: the windows of `l` tile `[s, e)` contiguously —
the first starts at `s`, each one starts where the previous ended, and
the last ends at `e` (empty tiling only when `s = e`). -/
def windowChain : List (Int × Int) → Int → Int → Prop
  | [], s, e => s = e
  | w :: rest, s, e => w.1 = s ∧ windowChain rest w.2 e

/-- Modelled from the spec: the state of the Fetch Orchestrator's merge
point (spec §4.3 step 3 and §9, code in the absent `bin/akamai-etp`):
completed-but-not-yet-due window results are buffered in a mapping
keyed by window sequence number, next to the next expected index and
the output emitted so far. -/
structure MergeState (ρ : Type) where
  buffer : List (Nat × List ρ)
  nextIndex : Nat
  output : List ρ

/-- Lookup of a window index in the merge buffer. -/
def bufLookup {ρ : Type} : List (Nat × List ρ) → Nat → Option (List ρ)
  | [], _ => none
  | (j, r) :: rest, i => if j = i then some r else bufLookup rest i

/-- Removal of a window index from the merge buffer. -/
def bufRemove {ρ : Type} : List (Nat × List ρ) → Nat → List (Nat × List ρ)
  | [], _ => []
  | (j, r) :: rest, i => if j = i then bufRemove rest i else (j, r) :: bufRemove rest i

/-- Modelled from the spec: release buffered results to the sink
strictly in sequence-number order (spec §9) while the next expected
window is present; the fuel is an upper bound on the number of
releases, one buffer entry being consumed by each. -/
def flushReady {ρ : Type} : Nat → MergeState ρ → MergeState ρ
  | 0, st => st
  | fuel + 1, st =>
    match bufLookup st.buffer st.nextIndex with
    | some recs =>
      flushReady fuel
        { buffer := bufRemove st.buffer st.nextIndex,
          nextIndex := st.nextIndex + 1,
          output := st.output ++ recs }
    | none => st

/-- Modelled from the spec: the merge point receives one completed
window (its sequence number and its records), buffers it, and releases
every window that has become due. -/
def mergeReceive {ρ : Type} (st : MergeState ρ) (c : Nat × List ρ) : MergeState ρ :=
  flushReady (c :: st.buffer).length
    { buffer := c :: st.buffer, nextIndex := st.nextIndex, output := st.output }

/-- The merge point before any window has completed. -/
def mergeInit {ρ : Type} : MergeState ρ :=
  { buffer := [], nextIndex := 0, output := [] }

/-- Modelled from the spec: the output of a historical-mode run whose
window tasks complete in the given order, each completion carrying the
window's sequence number and records. -/
def runMerge {ρ : Type} (completions : List (Nat × List ρ)) : List ρ :=
  (completions.foldl mergeReceive mergeInit).output

/-- The reference output of a sequential (`N = 1`) historical fetch:
the per-window record batches concatenated in ascending window order. -/
def seqOutput {ρ : Type} (results : Nat → List ρ) (k : Nat) : List ρ :=
  (List.range k).flatMap results

/-- Modelled from the spec: the Dedup Filter (spec §4.4, code in the
absent `bin/akamai-etp`): `seen` is the `DedupState` set of identities
already emitted in this invocation; a record passes exactly when its
stable identity `idOf r` is new, with the side effect of recording it. -/
def dedupFilter {ρ ι : Type} [DecidableEq ι] (idOf : ρ → ι) :
    List ρ → List ι → List ρ
  | [], _ => []
  | r :: rest, seen =>
    if idOf r ∈ seen then dedupFilter idOf rest seen
    else r :: dedupFilter idOf rest (idOf r :: seen)

/-- `duplicate_count` from `test/test.py` (lines 75-83): the number of
distinct lines that occur more than once in the output file. -/
def duplicate_count (lines : List String) : Nat :=
  (lines.dedup.filter (fun l => decide (1 < lines.count l))).length

/-- Modelled from the spec: `TailState` (spec §3) drives the tail-mode
poll loop of the absent `bin/akamai-etp`. -/
structure TailState where
  last_emitted_time : Int
  poll_interval : Int
  safety_lag : Int
deriving DecidableEq

/-- Modelled from the spec: one poll iteration's window
`[last_emitted_time, now - safety_lag)` (spec §4.3 tail step 2). -/
def tailWindow (st : TailState) (now : Int) : Int × Int :=
  (st.last_emitted_time, now - st.safety_lag)

/-- Modelled from the spec: the tail poll loop (spec §4.3), one entry of
`nows` being the clock value observed at each iteration: a non-empty
window is fetched and `last_emitted_time` advances to its end; an empty
window only sleeps until the next poll. -/
def tailRun : List Int → TailState → List (Int × Int)
  | [], _ => []
  | now :: rest, st =>
    let w := tailWindow st now
    if w.1 < w.2 then w :: tailRun rest { st with last_emitted_time := w.2 }
    else tailRun rest st

/-- Modelled from the spec: mode selection of the fetch entry point
(spec §4.3): with `--tail` any user-supplied `--start`/`--end` values
are ignored and the loop starts at `now0` minus the initial lookback;
in historical mode the user range (defaulted to the lookback window)
is partitioned. -/
def fetchWindows (tail : Bool) (userStart userEnd : Option Int)
    (nows : List Int) (now0 lookback poll lag W : Int) : List (Int × Int) :=
  if tail then
    tailRun nows
      { last_emitted_time := now0 - lookback, poll_interval := poll, safety_lag := lag }
  else
    partition (userStart.getD (now0 - lookback)) (userEnd.getD (now0 - lag)) W

/-- The invariant of the merge point, relative to the per-window record
assignment `results` and the set `S` of window indices whose completion
has been received: every index below the next expected one has been
received, the output is exactly the windows below the next expected
index in ascending order, and the buffer holds exactly the received
indices that are not yet due. -/
def MergeInv {ρ : Type} (results : Nat → List ρ) (S : Nat → Prop) (st : MergeState ρ) : Prop :=
  (∀ j, j < st.nextIndex → S j)
  ∧ st.output = (List.range st.nextIndex).flatMap results
  ∧ (∀ i, S i → st.nextIndex ≤ i → bufLookup st.buffer i = some (results i))
  ∧ (∀ i, ¬ (S i ∧ st.nextIndex ≤ i) → bufLookup st.buffer i = none)

/-- C4 counterexample: the invocation
`akamai etp event --start 100 --end 50 --concurrent 0` carries an
invalid time range (`end` not after `start`) and an invalid concurrency
value (zero), yet `parseEventArgs` accepts it — no `ConfigurationError`
rejection happens before the fetch. -/
theorem no_range_or_concurrency_validation :
    parseEventArgs
      { event_type := none, start := some "100", «end» := some "50",
        output := none, tail := false, poll := none, limit := none,
        concurrent := some "0" } none
      = Except.ok
        { event_type := "threat", start := some 100, «end» := some 50,
          output := none, tail := false, poll := 60, limit := 180,
          concurrent := PyValue.int 0 } := by
  rfl

/-- C4 (amended): argument parsing rejects an invocation whose
`--start` value is not a valid integer, but performs no semantic
validation at all — any integer `--start`/`--end`/`--concurrent`
values are accepted, including `end ≤ start` and `concurrent ≤ 0`. -/
theorem parser_accepts_any_integers (s e c : String) (sv ev cv : Int)
    (hs : pyInt s = some sv) (he : pyInt e = some ev) (hc : pyInt c = some cv) :
    (parseEventArgs
        { event_type := none, start := some s, «end» := some e,
          output := none, tail := false, poll := none, limit := none,
          concurrent := some c } none
      = Except.ok
        { event_type := "threat", start := some sv, «end» := some ev,
          output := none, tail := false, poll := 60, limit := 180,
          concurrent := PyValue.int cv })
    ∧ ∀ s' : String, pyInt s' = none →
        ∀ r : EventArgs,
          parseEventArgs
            { event_type := none, start := some s', «end» := none,
              output := none, tail := false, poll := none, limit := none,
              concurrent := none } none ≠ Except.ok r := by
  constructor
  · simp [parseEventArgs, parseEventType, parseIntOpt, parsePoll, parseLimit,
      parseConcurrent, hs, he, hc]
  · intro s' hs' r
    simp [parseEventArgs, parseEventType, parseIntOpt, hs']

/-- C4 witness: the amended theorem applied to the concrete invocation
`--start 100 --end 50 --concurrent 0`. -/
theorem parser_accepts_any_integers_witness :
    pyInt "100" = some 100 ∧ pyInt "50" = some 50 ∧ pyInt "0" = some 0 ∧
    ((parseEventArgs
        { event_type := none, start := some "100", «end» := some "50",
          output := none, tail := false, poll := none, limit := none,
          concurrent := some "0" } none
      = Except.ok
        { event_type := "threat", start := some 100, «end» := some 50,
          output := none, tail := false, poll := 60, limit := 180,
          concurrent := PyValue.int 0 })
    ∧ ∀ s' : String, pyInt s' = none →
        ∀ r : EventArgs,
          parseEventArgs
            { event_type := none, start := some s', «end» := none,
              output := none, tail := false, poll := none, limit := none,
              concurrent := none } none ≠ Except.ok r) :=
  ⟨by decide, by decide, by decide,
    parser_accepts_any_integers "100" "50" "0" 100 50 0
      (by decide) (by decide) (by decide)⟩

/-- C6: with neither a `--concurrent` command-line value nor the
`CLIETP_FETCH_CONCURRENT` environment variable, the concurrency level
defaults to the `int` `1`; a set environment variable overrides that
default — the parsed value is then `int(env)`, never the built-in `1`
path, and an invalid environment value aborts the parse rather than
falling back to `1`. -/
theorem concurrent_defaults (s : String) (n : Int) (h : pyInt s = some n) :
    parseConcurrent none none = Except.ok (PyValue.int 1)
    ∧ parseConcurrent none (some s) = Except.ok (PyValue.int n)
    ∧ ∀ s' : String, pyInt s' = none →
        ∀ v : PyValue, parseConcurrent none (some s') ≠ Except.ok v := by
  refine ⟨rfl, ?_, ?_⟩
  · simp [parseConcurrent, concurrentDefault, h]
  · intro s' hs' v
    simp [parseConcurrent, concurrentDefault, hs']

/-- C6 witness: the theorem applied to the environment value `"4"`. -/
theorem concurrent_defaults_witness :
    pyInt "4" = some 4 ∧
    (parseConcurrent none none = Except.ok (PyValue.int 1)
    ∧ parseConcurrent none (some "4") = Except.ok (PyValue.int 4)
    ∧ ∀ s' : String, pyInt s' = none →
        ∀ v : PyValue, parseConcurrent none (some s') ≠ Except.ok v) :=
  ⟨by decide, concurrent_defaults "4" 4 (by decide)⟩

/-- C7: `--poll` defaults to 60 seconds and `--limit` (the safety lag)
defaults to 3*60 = 180 seconds when not supplied. -/
theorem poll_and_limit_defaults :
    parsePoll none = Except.ok 60 ∧ parseLimit none = Except.ok 180 :=
  ⟨rfl, rfl⟩

/-- C9 counterexample: with `CLIETP_FETCH_CONCURRENT="4"` and no
`--concurrent` on the command line, the parsed concurrency value is the
Python `int` `4` and not the raw environment string `"4"` — `argparse`
applies `type=int` to string defaults too, refuting the claim. -/
theorem env_concurrent_not_raw_string :
    parseConcurrent none (some "4") = Except.ok (PyValue.int 4)
    ∧ parseConcurrent none (some "4") ≠ Except.ok (PyValue.str "4") := by
  refine ⟨rfl, fun h => ?_⟩
  simp [parseConcurrent, concurrentDefault, pyInt, parseDigits, digitVal] at h

/-- C9 (amended): when `CLIETP_FETCH_CONCURRENT` is set and
`--concurrent` is absent from the command line, `argparse` applies
`type=int` to the string default as well: the parsed value is
`int(env)` — never the raw string — and a non-integer environment
value aborts the parse with an `argparse` error. -/
theorem env_concurrent_type_converted (s : String) (n : Int) (h : pyInt s = some n) :
    parseConcurrent none (some s) = Except.ok (PyValue.int n)
    ∧ (∀ t : String, parseConcurrent none (some s) ≠ Except.ok (PyValue.str t))
    ∧ ∀ s' : String, pyInt s' = none →
        ∃ m : String, parseConcurrent none (some s') = Except.error m := by
  refine ⟨?_, ?_, ?_⟩
  · simp [parseConcurrent, concurrentDefault, h]
  · intro t ht
    simp [parseConcurrent, concurrentDefault, h] at ht
  · intro s' hs'
    refine ⟨"argument --concurrent: invalid int value: " ++ s', ?_⟩
    simp [parseConcurrent, concurrentDefault, hs']

/-- C9 witness: the amended theorem applied to the environment value
`"4"`. -/
theorem env_concurrent_type_converted_witness :
    pyInt "4" = some 4 ∧
    (parseConcurrent none (some "4") = Except.ok (PyValue.int 4)
    ∧ (∀ t : String, parseConcurrent none (some "4") ≠ Except.ok (PyValue.str t))
    ∧ ∀ s' : String, pyInt s' = none →
        ∃ m : String, parseConcurrent none (some s') = Except.error m) :=
  ⟨by decide, env_concurrent_type_converted "4" 4 (by decide)⟩

/-- C10: the `event` sub-command's event type defaults to `"threat"`
when absent; a value outside the `choices` enumeration is rejected by
the parser, while every enumerated value is accepted unchanged. -/
theorem event_type_default_and_choices (s : String)
    (h : eventTypeChoices.contains s = false) :
    parseEventType none = Except.ok "threat"
    ∧ (∀ t : String, parseEventType (some s) ≠ Except.ok t)
    ∧ ∀ c ∈ eventTypeChoices, parseEventType (some c) = Except.ok c := by
  have hmem : s ∉ eventTypeChoices := by simpa using h
  refine ⟨rfl, fun t ht => ?_, ?_⟩
  · simp [parseEventType, hmem] at ht
  · intro c hc
    fin_cases hc <;> rfl

/-- C10 witness: the theorem applied to the non-enumerated event type
`"bogus"`. -/
theorem event_type_default_and_choices_witness :
    eventTypeChoices.contains "bogus" = false ∧
    (parseEventType none = Except.ok "threat"
    ∧ (∀ t : String, parseEventType (some "bogus") ≠ Except.ok t)
    ∧ ∀ c ∈ eventTypeChoices, parseEventType (some c) = Except.ok c) :=
  ⟨by decide, event_type_default_and_choices "bogus" (by decide)⟩

/-- C8: when the `.edgerc` file exists but has no section with the
requested name, `EdgeGridConfig` construction terminates the process
through `sys.exit` with the error message, before any network
operation; when the file does not exist, construction proceeds without
raising. -/
theorem edgerc_missing_section_exits (f : EdgercFile) (configuration file : String)
    (h : has_section f configuration = false) :
    loadEdgerc true f configuration file
      = ConfigOutcome.exitError (noSectionMsg configuration file)
    ∧ ∀ (f' : EdgercFile) (cfg' file' : String),
        loadEdgerc false f' cfg' file' = ConfigOutcome.proceed := by
  refine ⟨?_, fun f' cfg' file' => rfl⟩
  simp [loadEdgerc, h]

/-- C8 witness: the theorem applied to a file holding only a `default`
section while the `etp` section is requested. -/
theorem edgerc_missing_section_exits_witness :
    has_section { sections := [("default", [("host", "akab.example.net")])] } "etp" = false ∧
    (loadEdgerc true { sections := [("default", [("host", "akab.example.net")])] } "etp" "~/.edgerc"
      = ConfigOutcome.exitError (noSectionMsg "etp" "~/.edgerc")
    ∧ ∀ (f' : EdgercFile) (cfg' file' : String),
        loadEdgerc false f' cfg' file' = ConfigOutcome.proceed) :=
  ⟨by decide,
    edgerc_missing_section_exits
      { sections := [("default", [("host", "akab.example.net")])] } "etp" "~/.edgerc"
      (by decide)⟩

/-- C5: with the tail flag set, the produced poll windows are the same
for any user-supplied `--start`/`--end` values — the loop is driven
only by the initial lookback and the evolving `TailState`. -/
theorem tail_ignores_start_end (s1 e1 s2 e2 : Option Int)
    (nows : List Int) (now0 lookback poll lag W : Int) :
    fetchWindows true s1 e1 nows now0 lookback poll lag W
      = fetchWindows true s2 e2 nows now0 lookback poll lag W
    ∧ fetchWindows true s1 e1 nows now0 lookback poll lag W
      = tailRun nows
          { last_emitted_time := now0 - lookback, poll_interval := poll,
            safety_lag := lag } := by
  constructor <;> simp [fetchWindows]

theorem partitionAux_chain (fuel : Nat) :
    ∀ s e W : Int, 0 < W → s ≤ e → (e - s).toNat ≤ fuel →
      windowChain (partitionAux fuel s e W) s e := by
  induction fuel with
  | zero =>
    intro s e W hW hse hfuel
    have : s = e := by omega
    simpa [partitionAux, windowChain] using this
  | succ fuel ih =>
    intro s e W hW hse hfuel
    by_cases hlt : s < e
    · have hmin : min (s + W) e = s + W ∨ min (s + W) e = e := min_choice _ _
      simp only [partitionAux, hlt, if_true, windowChain]
      refine ⟨trivial, ih (min (s + W) e) e W hW ?_ ?_⟩ <;> rcases hmin with h | h <;> omega
    · have : s = e := by omega
      simp [partitionAux, hlt, windowChain, this]

theorem partitionAux_window_bounds (fuel : Nat) :
    ∀ s e W : Int, 0 < W →
      ∀ w ∈ partitionAux fuel s e W, w.1 < w.2 ∧ w.2 - w.1 ≤ W := by
  induction fuel with
  | zero => intro s e W hW w hw; simp [partitionAux] at hw
  | succ fuel ih =>
    intro s e W hW w hw
    by_cases hlt : s < e
    · simp only [partitionAux, hlt, if_true, List.mem_cons] at hw
      rcases hw with rfl | hw
      · have hmin : min (s + W) e = s + W ∨ min (s + W) e = e := min_choice _ _
        constructor <;> rcases hmin with h | h <;> simp only [h] <;> omega
      · exact ih _ e W hW w hw
    · simp [partitionAux, hlt] at hw

theorem windowChain_le (l : List (Int × Int)) :
    ∀ s e : Int, windowChain l s e → (∀ w ∈ l, w.1 < w.2) → s ≤ e := by
  induction l with
  | nil => intro s e hc _; simp [windowChain] at hc; omega
  | cons w rest ih =>
    intro s e hc hw
    obtain ⟨h1, h2⟩ := hc
    have hhead := hw w (List.mem_cons_self w rest)
    have := ih w.2 e h2 (fun v hv => hw v (List.mem_cons_of_mem w hv))
    omega

theorem windowChain_cover (l : List (Int × Int)) :
    ∀ s e : Int, windowChain l s e → (∀ w ∈ l, w.1 < w.2) →
      ∀ t : Int, (s ≤ t ∧ t < e) ↔ ∃ w ∈ l, w.1 ≤ t ∧ t < w.2 := by
  induction l with
  | nil =>
    intro s e hc _ t
    simp only [windowChain] at hc
    simp [hc]
  | cons w rest ih =>
    intro s e hc hw t
    obtain ⟨h1, h2⟩ := hc
    have hhead := hw w (List.mem_cons_self w rest)
    have hrest : ∀ v ∈ rest, v.1 < v.2 := fun v hv => hw v (List.mem_cons_of_mem w hv)
    have hbe : w.2 ≤ e := windowChain_le rest w.2 e h2 hrest
    have hIH := ih w.2 e h2 hrest t
    simp only [List.mem_cons]
    constructor
    · rintro ⟨hst, hte⟩
      by_cases htw : t < w.2
      · exact ⟨w, Or.inl rfl, by omega, htw⟩
      · obtain ⟨v, hv, hv1, hv2⟩ := hIH.mp ⟨by omega, hte⟩
        exact ⟨v, Or.inr hv, hv1, hv2⟩
    · rintro ⟨v, hv | hv, hv1, hv2⟩
      · subst hv; omega
      · have := hIH.mpr ⟨v, hv, hv1, hv2⟩
        omega

theorem windowChain_starts (l : List (Int × Int)) :
    ∀ s e : Int, windowChain l s e → (∀ w ∈ l, w.1 < w.2) →
      ∀ w ∈ l, s ≤ w.1 := by
  induction l with
  | nil => intro s e _ _ w hw; simp at hw
  | cons w rest ih =>
    intro s e hc hw v hv
    obtain ⟨h1, h2⟩ := hc
    have hhead := hw w (List.mem_cons_self w rest)
    have hrest : ∀ u ∈ rest, u.1 < u.2 := fun u hu => hw u (List.mem_cons_of_mem w hu)
    rcases List.mem_cons.mp hv with rfl | hv
    · omega
    · have := ih w.2 e h2 hrest v hv
      omega

theorem windowChain_pairwise (l : List (Int × Int)) :
    ∀ s e : Int, windowChain l s e → (∀ w ∈ l, w.1 < w.2) →
      l.Pairwise (fun w v => w.2 ≤ v.1) := by
  induction l with
  | nil => intro s e _ _; exact List.Pairwise.nil
  | cons w rest ih =>
    intro s e hc hw
    obtain ⟨h1, h2⟩ := hc
    have hrest : ∀ u ∈ rest, u.1 < u.2 := fun u hu => hw u (List.mem_cons_of_mem w hu)
    exact List.Pairwise.cons (windowChain_starts rest w.2 e h2 hrest)
      (ih w.2 e h2 hrest)

/-- C1: for `end > start` and `W > 0` the partitioner tiles `[start, end)`
contiguously with windows of positive length at most `W`; every instant
of `[start, end)` is covered by some window, the windows are pairwise
ordered (hence non-overlapping and ascending); `end ≤ start` yields the
empty sequence, and `partition 0 250 100` is exactly
`[0,100), [100,200), [200,250)`. -/
theorem partition_covers (s e W : Int) (hse : s < e) (hW : 0 < W) :
    windowChain (partition s e W) s e
    ∧ (∀ w ∈ partition s e W, w.1 < w.2 ∧ w.2 - w.1 ≤ W)
    ∧ (∀ t : Int, (s ≤ t ∧ t < e) ↔ ∃ w ∈ partition s e W, w.1 ≤ t ∧ t < w.2)
    ∧ (partition s e W).Pairwise (fun w v => w.2 ≤ v.1)
    ∧ (∀ s' e' W' : Int, e' ≤ s' → partition s' e' W' = [])
    ∧ partition 0 250 100 = [(0, 100), (100, 200), (200, 250)] := by
  have hchain : windowChain (partition s e W) s e := by
    simp only [partition, hW, if_true]
    exact partitionAux_chain _ s e W hW (le_of_lt hse) (le_refl _)
  have hbounds : ∀ w ∈ partition s e W, w.1 < w.2 ∧ w.2 - w.1 ≤ W := by
    simp only [partition, hW, if_true]
    exact partitionAux_window_bounds _ s e W hW
  have hlt : ∀ w ∈ partition s e W, w.1 < w.2 := fun w hw => (hbounds w hw).1
  refine ⟨hchain, hbounds, windowChain_cover _ s e hchain hlt,
    windowChain_pairwise _ s e hchain hlt, ?_, by decide⟩
  intro s' e' W' hle
  have : (e' - s').toNat = 0 := by omega
  by_cases hW' : 0 < W' <;> simp [partition, hW', this, partitionAux]

/-- C1 witness: the theorem applied to the concrete range
`[0, 250)` with maximum window size `100`. -/
theorem partition_covers_witness :
    (0 : Int) < 250 ∧ (0 : Int) < 100 ∧
      partition 0 250 100 = [(0, 100), (100, 200), (200, 250)] :=
  ⟨by decide, by decide, (partition_covers 0 250 100 (by decide) (by decide)).2.2.2.2.2⟩

theorem dedupFilter_mem {ρ ι : Type} [DecidableEq ι] (idOf : ρ → ι) (l : List ρ) :
    ∀ (seen : List ι) (x : ι),
      x ∈ (dedupFilter idOf l seen).map idOf ↔ x ∈ l.map idOf ∧ x ∉ seen := by
  induction l with
  | nil => intro seen x; simp [dedupFilter]
  | cons r rest ih =>
    intro seen x
    by_cases hr : idOf r ∈ seen
    · simp only [dedupFilter, hr, if_true, List.map_cons, List.mem_cons, ih]
      constructor
      · rintro ⟨hx, hs⟩; exact ⟨Or.inr hx, hs⟩
      · rintro ⟨hx | hx, hs⟩
        · subst hx; exact absurd hr hs
        · exact ⟨hx, hs⟩
    · simp only [dedupFilter, hr, if_false, List.map_cons, List.mem_cons, ih,
        List.mem_cons]
      constructor
      · rintro (rfl | ⟨hx, hs⟩)
        · exact ⟨Or.inl rfl, hr⟩
        · exact ⟨Or.inr hx, fun hxs => hs (Or.inr hxs)⟩
      · rintro ⟨rfl | hx, hs⟩
        · exact Or.inl rfl
        · by_cases hxr : x = idOf r
          · exact Or.inl hxr
          · exact Or.inr ⟨hx, fun hc => hc.elim hxr hs⟩

theorem dedupFilter_nodup {ρ ι : Type} [DecidableEq ι] (idOf : ρ → ι) (l : List ρ) :
    ∀ seen : List ι, ((dedupFilter idOf l seen).map idOf).Nodup := by
  induction l with
  | nil => intro seen; simp [dedupFilter]
  | cons r rest ih =>
    intro seen
    by_cases hr : idOf r ∈ seen
    · simpa only [dedupFilter, hr, if_true] using ih seen
    · simp only [dedupFilter, hr, if_false, List.map_cons, List.nodup_cons]
      refine ⟨fun hmem => ?_, ih _⟩
      have := (dedupFilter_mem idOf rest _ (idOf r)).mp hmem
      simp at this

theorem nodup_count_eq {ι : Type} [DecidableEq ι] (l : List ι) (x : ι) (h : l.Nodup) :
    l.count x = if x ∈ l then 1 else 0 := by
  by_cases hx : x ∈ l
  · simp only [hx, if_true]
    exact List.count_eq_one_of_mem h hx
  · simp only [hx, if_false]
    exact List.count_eq_zero_of_not_mem hx

theorem duplicate_count_eq_zero (lines : List String) (h : lines.Nodup) :
    duplicate_count lines = 0 := by
  have hall : ∀ l ∈ lines.dedup, ¬ (decide (1 < lines.count l) = true) := by
    intro l _
    have := nodup_count_eq lines l h
    by_cases hl : l ∈ lines <;> simp [this, hl]
  simp only [duplicate_count]
  rw [List.filter_eq_nil_iff.mpr hall]
  rfl

/-- C3: within one invocation, running the same fetch twice over
overlapping windows (the two runs concatenated through the shared
`DedupState`) emits each distinct event identity exactly once; in
particular, an output file written this way contains no duplicate
lines as measured by the test suite's `duplicate_count`. -/
theorem dedup_each_identity_once {ρ ι : Type} [DecidableEq ι] (idOf : ρ → ι)
    (run1 run2 : List ρ) :
    (∀ x : ι, ((dedupFilter idOf (run1 ++ run2) []).map idOf).count x
        = if x ∈ (run1 ++ run2).map idOf then 1 else 0)
    ∧ ∀ lines1 lines2 : List String,
        duplicate_count (dedupFilter (fun l => l) (lines1 ++ lines2) []) = 0 := by
  constructor
  · intro x
    rw [nodup_count_eq _ x (dedupFilter_nodup idOf _ [])]
    have := dedupFilter_mem idOf (run1 ++ run2) [] x
    simp only [List.not_mem_nil, not_false_iff, and_true] at this
    by_cases hx : x ∈ (run1 ++ run2).map idOf <;> simp [hx, this]
  · intro lines1 lines2
    apply duplicate_count_eq_zero
    have := dedupFilter_nodup (fun l : String => l) (lines1 ++ lines2) []
    simpa using this

theorem bufLookup_remove_ne {ρ : Type} (buf : List (Nat × List ρ)) (n i : Nat)
    (h : i ≠ n) : bufLookup (bufRemove buf n) i = bufLookup buf i := by
  induction buf with
  | nil => rfl
  | cons p rest ih =>
    obtain ⟨j, r⟩ := p
    by_cases hj : j = n
    · have hji : ¬ j = i := by omega
      simp [bufRemove, bufLookup, hj, hji, ih, h, Ne.symm h]
    · by_cases hji : j = i <;> simp [bufRemove, bufLookup, hj, hji, ih, h, Ne.symm h]

theorem bufLookup_remove_self {ρ : Type} (buf : List (Nat × List ρ)) (n : Nat) :
    bufLookup (bufRemove buf n) n = none := by
  induction buf with
  | nil => rfl
  | cons p rest ih =>
    obtain ⟨j, r⟩ := p
    by_cases hj : j = n <;> simp [bufRemove, bufLookup, hj, ih]

theorem bufRemove_length_le {ρ : Type} (buf : List (Nat × List ρ)) (n : Nat) :
    (bufRemove buf n).length ≤ buf.length := by
  induction buf with
  | nil => exact le_refl _
  | cons p rest ih =>
    obtain ⟨j, r⟩ := p
    by_cases hj : j = n <;> simp [bufRemove, hj] <;> omega

theorem bufRemove_length_lt {ρ : Type} (buf : List (Nat × List ρ)) (n : Nat)
    (h : (bufLookup buf n).isSome) : (bufRemove buf n).length < buf.length := by
  induction buf with
  | nil => simp [bufLookup] at h
  | cons p rest ih =>
    obtain ⟨j, r⟩ := p
    by_cases hj : j = n
    · have := bufRemove_length_le rest n
      simp [bufRemove, hj]
      omega
    · simp only [bufLookup, hj, if_false] at h
      simp [bufRemove, hj]
      exact ih h

theorem flushReady_inv {ρ : Type} (results : Nat → List ρ) (S : Nat → Prop) :
    ∀ (fuel : Nat) (st : MergeState ρ), MergeInv results S st →
      st.buffer.length ≤ fuel →
      MergeInv results S (flushReady fuel st) ∧ ¬ S (flushReady fuel st).nextIndex := by
  intro fuel
  induction fuel with
  | zero =>
    intro st hInv hlen
    have hbuf : st.buffer = [] := List.length_eq_zero.mp (Nat.le_zero.mp hlen)
    refine ⟨hInv, fun hS => ?_⟩
    have hl := hInv.2.2.1 st.nextIndex hS (le_refl _)
    rw [hbuf] at hl
    exact Option.noConfusion hl
  | succ fuel ih =>
    intro st hInv hlen
    obtain ⟨h1, h2, h3, h4⟩ := hInv
    simp only [flushReady]
    cases hbl : bufLookup st.buffer st.nextIndex with
    | none =>
      refine ⟨⟨h1, h2, h3, h4⟩, fun hS => ?_⟩
      rw [h3 st.nextIndex hS (le_refl _)] at hbl
      exact Option.noConfusion hbl
    | some recs =>
      have hSnext : S st.nextIndex := by
        by_contra hS
        rw [h4 st.nextIndex (fun hc => hS hc.1)] at hbl
        exact Option.noConfusion hbl
      have hrecs : recs = results st.nextIndex := by
        have hl := h3 st.nextIndex hSnext (le_refl _)
        rw [hbl] at hl
        exact Option.some.inj hl
      subst hrecs
      apply ih
      · refine ⟨?_, ?_, ?_, ?_⟩
        · intro j hj
          have hj' : j < st.nextIndex + 1 := hj
          rcases Nat.lt_succ_iff_lt_or_eq.mp hj' with hlt | heq
          · exact h1 j hlt
          · subst heq; exact hSnext
        · show st.output ++ results st.nextIndex
            = (List.range (st.nextIndex + 1)).flatMap results
          rw [List.range_succ, h2]
          simp
        · intro m hSm hle
          have hle' : st.nextIndex + 1 ≤ m := hle
          have hne : m ≠ st.nextIndex := by omega
          show bufLookup (bufRemove st.buffer st.nextIndex) m = some (results m)
          rw [bufLookup_remove_ne st.buffer st.nextIndex m hne]
          exact h3 m hSm (by omega)
        · intro m hm
          have hm' : ¬ (S m ∧ st.nextIndex + 1 ≤ m) := hm
          by_cases hme : m = st.nextIndex
          · subst hme
            exact bufLookup_remove_self st.buffer st.nextIndex
          · show bufLookup (bufRemove st.buffer st.nextIndex) m = none
            exact (bufLookup_remove_ne st.buffer st.nextIndex m hme).trans
              (h4 m (fun hc => hm' ⟨hc.1, by omega⟩))
      · show (bufRemove st.buffer st.nextIndex).length ≤ fuel
        have := bufRemove_length_lt st.buffer st.nextIndex (by rw [hbl]; rfl)
        omega

theorem mergeReceive_inv {ρ : Type} (results : Nat → List ρ) (S : Nat → Prop)
    (st : MergeState ρ) (i : Nat)
    (hInv : MergeInv results S st) (hnext : ¬ S st.nextIndex) (hiNew : ¬ S i) :
    MergeInv results (fun j => S j ∨ j = i) (mergeReceive st (i, results i))
    ∧ ¬ (S (mergeReceive st (i, results i)).nextIndex
          ∨ (mergeReceive st (i, results i)).nextIndex = i) := by
  obtain ⟨h1, h2, h3, h4⟩ := hInv
  have hni : st.nextIndex ≤ i := by
    by_contra hlt
    exact hiNew (h1 i (by omega))
  have hInv' : MergeInv results (fun j => S j ∨ j = i)
      { buffer := (i, results i) :: st.buffer, nextIndex := st.nextIndex,
        output := st.output } := by
    refine ⟨fun j hj => Or.inl (h1 j hj), h2, ?_, ?_⟩
    · intro m hm hle
      show (if i = m then some (results i) else bufLookup st.buffer m) = some (results m)
      by_cases hmi : i = m
      · subst hmi; simp
      · rcases hm with hm | hm
        · rw [if_neg hmi]
          exact h3 m hm hle
        · exact absurd hm.symm hmi
    · intro m hm
      show (if i = m then some (results i) else bufLookup st.buffer m) = none
      by_cases hmi : i = m
      · subst hmi
        exact absurd ⟨Or.inr rfl, hni⟩ hm
      · rw [if_neg hmi]
        refine h4 m (fun hc => hm ⟨Or.inl hc.1, hc.2⟩)
  have := flushReady_inv results (fun j => S j ∨ j = i)
    ((i, results i) :: st.buffer).length
    { buffer := (i, results i) :: st.buffer, nextIndex := st.nextIndex,
      output := st.output } hInv' (le_refl _)
  exact this

theorem mergeInv_congr {ρ : Type} (results : Nat → List ρ) (S S' : Nat → Prop)
    (hss : ∀ j, S j ↔ S' j) (st : MergeState ρ) (h : MergeInv results S st) :
    MergeInv results S' st := by
  obtain ⟨h1, h2, h3, h4⟩ := h
  exact ⟨fun j hj => (hss j).mp (h1 j hj), h2,
    fun m hm hle => h3 m ((hss m).mpr hm) hle,
    fun m hm => h4 m (fun hc => hm ⟨(hss m).mp hc.1, hc.2⟩)⟩

theorem foldReceive_inv {ρ : Type} (results : Nat → List ρ) :
    ∀ (order : List Nat) (S : Nat → Prop) (st : MergeState ρ),
      order.Nodup → (∀ i ∈ order, ¬ S i) →
      MergeInv results S st → ¬ S st.nextIndex →
      MergeInv results (fun j => S j ∨ j ∈ order)
          (List.foldl mergeReceive st (order.map (fun i => (i, results i))))
      ∧ ¬ (S (List.foldl mergeReceive st (order.map (fun i => (i, results i)))).nextIndex
            ∨ (List.foldl mergeReceive st
                (order.map (fun i => (i, results i)))).nextIndex ∈ order) := by
  intro order
  induction order with
  | nil =>
    intro S st _ _ hInv hnext
    simp only [List.map_nil, List.foldl_nil]
    refine ⟨mergeInv_congr results S _ (fun j => by simp) st hInv, ?_⟩
    simpa using hnext
  | cons i rest ih =>
    intro S st hnd hnew hInv hnext
    simp only [List.map_cons, List.foldl_cons]
    have hrec := mergeReceive_inv results S st i hInv hnext
      (hnew i (List.mem_cons_self i rest))
    have hnewrest : ∀ j ∈ rest, ¬ (S j ∨ j = i) := by
      intro j hj hc
      rcases hc with hS | he
      · exact hnew j (List.mem_cons_of_mem i hj) hS
      · subst he
        exact (List.nodup_cons.mp hnd).1 hj
    have hstep := ih (fun j => S j ∨ j = i) (mergeReceive st (i, results i))
      (List.Nodup.of_cons hnd) hnewrest hrec.1 hrec.2
    refine ⟨mergeInv_congr results _ _
      (fun j => by simp only [List.mem_cons]; tauto) _ hstep.1, ?_⟩
    intro hc
    apply hstep.2
    rcases hc with hc | hc
    · exact Or.inl (Or.inl hc)
    · rcases List.mem_cons.mp hc with he | hm
      · exact Or.inl (Or.inr he)
      · exact Or.inr hm

theorem runMerge_perm {ρ : Type} (results : Nat → List ρ) (k : Nat) (order : List Nat)
    (hperm : order.Perm (List.range k)) :
    runMerge (order.map (fun i => (i, results i))) = seqOutput results k := by
  have hnd : order.Nodup := hperm.nodup_iff.mpr (List.nodup_range k)
  have hmem : ∀ j, j ∈ order ↔ j < k := fun j => by
    rw [hperm.mem_iff, List.mem_range]
  have hinit : MergeInv results (fun _ => False) (mergeInit : MergeState ρ) := by
    refine ⟨?_, rfl, ?_, ?_⟩
    · intro j hj
      exact absurd hj (Nat.not_lt_zero j)
    · intro m hm _
      exact absurd hm (fun h => h)
    · intro m _
      rfl
  have hfold := foldReceive_inv results order (fun _ => False) mergeInit hnd
    (fun i _ hF => hF) hinit (fun h => h)
  obtain ⟨⟨h1, h2, _, _⟩, hnotS⟩ := hfold
  set stf := List.foldl mergeReceive (mergeInit : MergeState ρ)
    (order.map (fun i => (i, results i))) with hstf
  have hk1 : k ≤ stf.nextIndex := by
    by_contra hlt
    exact hnotS (Or.inr ((hmem stf.nextIndex).mpr (by omega)))
  have hk2 : stf.nextIndex ≤ k := by
    by_contra hlt
    have := h1 k (by omega)
    rcases this with hF | hmemk
    · exact hF
    · exact absurd ((hmem k).mp hmemk) (lt_irrefl k)
  have hnk : stf.nextIndex = k := le_antisymm hk2 hk1
  show stf.output = seqOutput results k
  rw [h2, hnk]
  rfl

/-- C2: for every concurrency level `N ≥ 1`, a historical-mode fetch
emits output identical to the sequential `N = 1` output — the
per-window batches concatenated in ascending window order — no matter
in which order the concurrent window tasks complete (any worker pool,
whatever its size, delivers the window completions in some permutation
of the window sequence). -/
theorem concurrent_merge_order_invariant {ρ : Type} (results : Nat → List ρ)
    (k N : Nat) (hN : 1 ≤ N) (order : List Nat)
    (hperm : order.Perm (List.range k)) :
    runMerge (order.map (fun i => (i, results i))) = seqOutput results k
    ∧ runMerge ((List.range k).map (fun i => (i, results i))) = seqOutput results k :=
  ⟨runMerge_perm results k order hperm,
    runMerge_perm results k (List.range k) (List.Perm.refl _)⟩

/-- C2 witness: three windows, pool of two workers, completion order
2, 0, 1 — the merged output still lists the windows in order 0, 1, 2. -/
theorem concurrent_merge_order_invariant_witness :
    1 ≤ 2 ∧ List.Perm [2, 0, 1] (List.range 3) ∧
      (runMerge ([2, 0, 1].map (fun i => (i, [i * 10])))
          = seqOutput (fun i => [i * 10]) 3
      ∧ runMerge ((List.range 3).map (fun i => (i, [i * 10])))
          = seqOutput (fun i => [i * 10]) 3) :=
  ⟨by decide, by decide,
    concurrent_merge_order_invariant (fun i => [i * 10]) 3 2 (by decide)
      [2, 0, 1] (by decide)⟩

end CliEtp
